import Mathlib

/-!
# Verification of the tikv-digest duration codec

Shallow embedding of `tikv_util/src/config.rs` (the `ReadableDuration`
codec: `FromStr`, `Display`, and the `ConfigValue` interchange
conversions) and `tikv_util/src/time.rs` (`duration_to_ms`).

The Rust parser accumulates in `f64`; we model IEEE-754 binary64 values
exactly: a float is NaN (with sign bit), an infinity (with sign bit),
negative zero, or a finite value represented by the exact rational it
denotes (`+0.0` is `finite 0`).  Arithmetic computes the exact rational
result and applies round-to-nearest, ties-to-even, as IEEE-754 (and
hence Rust on every supported target) prescribes.  All definitions are
fuel-based structural recursions so that the kernel can evaluate them
on concrete inputs.
-/

attribute [local semireducible] Rat.add Rat.mul Rat.sub Rat.inv

/-! ## Unit weight constants (config.rs lines 8-17) -/

def UNIT : ℕ := 1
def TIME_MAGNITUDE_1 : ℕ := 1000
def TIME_MAGNITUDE_2 : ℕ := 60
def TIME_MAGNITUDE_3 : ℕ := 24
def MS : ℕ := UNIT
def SECOND : ℕ := MS * TIME_MAGNITUDE_1
def MINUTE : ℕ := SECOND * TIME_MAGNITUDE_2
def HOUR : ℕ := MINUTE * TIME_MAGNITUDE_2
def DAY : ℕ := HOUR * TIME_MAGNITUDE_3

/-! ## Binary64 model -/

/-- A fuel-based base-2 logarithm (`log2fuel n n` peels one bit per step,
so fuel `n` always suffices for a positive input `n`). -/
def log2fuel : ℕ → ℕ → ℕ
  | 0, _ => 0
  | f + 1, n => if n ≤ 1 then 0 else log2fuel f (n / 2) + 1

/-- `natLog2 n = ⌊log₂ n⌋` for `n ≥ 1`. -/
def natLog2 (n : ℕ) : ℕ := log2fuel n n

/-- `natClog2 n = ⌈log₂ n⌉`-like: the least `k` with `n ≤ 2 ^ k`. -/
def natClog2 (n : ℕ) : ℕ := if n ≤ 1 then 0 else natLog2 (n - 1) + 1

/-- `2 ^ k` as a rational, for an integer (possibly negative) exponent. -/
def zpow2 (k : ℤ) : ℚ := if 0 ≤ k then ((2 ^ k.toNat : ℕ) : ℚ) else (((2 ^ (-k).toNat : ℕ) : ℚ))⁻¹

/-- `⌊log₂ q⌋` for a positive rational `q`. -/
def floorLog2 (q : ℚ) : ℤ :=
  if 1 ≤ q then (natLog2 ⌊q⌋.toNat : ℤ) else -(natClog2 (-⌊-q⁻¹⌋).toNat : ℤ)

/-- Round a rational to the nearest integer, ties to even. -/
def rne (x : ℚ) : ℤ :=
  let n := ⌊x⌋
  if x - n < 1 / 2 then n
  else if (1 : ℚ) / 2 < x - n then n + 1
  else if n % 2 = 0 then n else n + 1

/-- An IEEE-754 binary64 value.  `finite q` carries the exact rational
value (`finite 0` is `+0.0`); the zero with a set sign bit is `negZero`. -/
inductive F64 where
  | nan (neg : Bool)
  | inf (neg : Bool)
  | negZero
  | finite (q : ℚ)
deriving DecidableEq, Repr

/-- Round a positive rational to binary64 (round to nearest, ties to
even): mantissas have 53 bits, the minimum exponent (subnormal range)
is `2⁻¹⁰⁷⁴`, and a rounded result of `2¹⁰²⁴` or more overflows to
infinity. -/
def roundPos (q : ℚ) : F64 :=
  let k := floorLog2 q
  let e := max (k - 52) (-1074)
  let m := rne (q / zpow2 e)
  if m ≤ 0 then F64.finite 0
  else if (((2 ^ 256 : ℕ) ^ 4 : ℕ) : ℚ) ≤ (m : ℚ) * zpow2 e then F64.inf false
  else F64.finite ((m : ℚ) * zpow2 e)

/-- Attach a sign to a rounded magnitude (used for negative results:
an underflow to zero keeps the negative sign bit). -/
def applySign (neg : Bool) : F64 → F64
  | F64.nan _ => F64.nan neg
  | F64.inf _ => F64.inf neg
  | F64.negZero => if neg then F64.negZero else F64.finite 0
  | F64.finite x =>
      if neg then (if x = 0 then F64.negZero else F64.finite (-x)) else F64.finite x

/-- Round a nonzero rational to binary64, by sign and magnitude. -/
def roundF64 (q : ℚ) : F64 :=
  if q < 0 then applySign true (roundPos (-q)) else roundPos q

/-- The sign bit of a binary64 value (`f64::is_sign_negative`). -/
def F64.sign : F64 → Bool
  | F64.nan b => b
  | F64.inf b => b
  | F64.negZero => true
  | F64.finite q => decide (q < 0)

/-- Binary64 multiplication: exact product, then rounding.  A NaN operand
propagates (first operand first); `∞ × 0` is invalid and produces the
x86-64 default quiet NaN, whose sign bit is set. -/
def fmul : F64 → F64 → F64
  | F64.nan s, _ => F64.nan s
  | _, F64.nan s => F64.nan s
  | F64.inf s, F64.inf t => F64.inf (xor s t)
  | F64.inf _, F64.negZero => F64.nan true
  | F64.inf s, F64.finite q =>
      if q = 0 then F64.nan true else F64.inf (xor s (decide (q < 0)))
  | F64.negZero, F64.inf _ => F64.nan true
  | F64.finite q, F64.inf t =>
      if q = 0 then F64.nan true else F64.inf (xor t (decide (q < 0)))
  | F64.negZero, F64.negZero => F64.finite 0
  | F64.negZero, F64.finite q => if q < 0 then F64.finite 0 else F64.negZero
  | F64.finite q, F64.negZero => if q < 0 then F64.finite 0 else F64.negZero
  | F64.finite p, F64.finite q =>
      let r := p * q
      if r = 0 then (if xor (decide (p < 0)) (decide (q < 0)) then F64.negZero else F64.finite 0)
      else if r < 0 then applySign true (roundPos (-r)) else roundPos r

/-- Binary64 addition: exact sum, then rounding.  Exact cancellation of
nonzero operands yields `+0.0` under round-to-nearest; `∞ + (-∞)` is
invalid and produces the default quiet NaN with sign bit set. -/
def fadd : F64 → F64 → F64
  | F64.nan s, _ => F64.nan s
  | _, F64.nan s => F64.nan s
  | F64.inf s, F64.inf t => if s = t then F64.inf s else F64.nan true
  | F64.inf s, _ => F64.inf s
  | _, F64.inf t => F64.inf t
  | F64.negZero, F64.negZero => F64.negZero
  | F64.negZero, F64.finite q => F64.finite q
  | F64.finite q, F64.negZero => F64.finite q
  | F64.finite p, F64.finite q =>
      let r := p + q
      if r = 0 then F64.finite 0
      else if r < 0 then applySign true (roundPos (-r)) else roundPos r

/-- Rust's saturating `as u64` cast from `f64`: NaN casts to `0`,
values are truncated toward zero and clamped to `[0, u64::MAX]`. -/
def castU64 : F64 → ℕ
  | F64.nan _ => 0
  | F64.inf b => if b then 0 else 2 ^ 64 - 1
  | F64.negZero => 0
  | F64.finite q => if q ≤ 0 then 0 else if ((2 ^ 64 : ℕ) : ℚ) ≤ q then 2 ^ 64 - 1 else ⌊q⌋.toNat

/-- Rust's `u64 as f64` cast (round to nearest, ties to even). -/
def natToF64 (n : ℕ) : F64 := if n = 0 then F64.finite 0 else roundPos (n : ℚ)

/-! ## Rust `f64` literal parsing (`str::parse::<f64>`)

Rust's grammar (from the `FromStr for f64` documentation):

    Float  ::= Sign? ( 'inf' | 'infinity' | 'nan' | Number )
    Number ::= Digit+ | Digit+ '.' Digit* | Digit* '.' Digit+ , each Exp?
    Exp    ::= ('e' | 'E') Sign? Digit+

case-insensitive for the special values, and the result is the exactly
rounded (round to nearest, ties to even) binary64 value. -/

/-- Value of a list of decimal digit characters (most significant first). -/
def digitsToNat (l : List Char) : ℕ := l.foldl (fun a c => a * 10 + (c.toNat - 48)) 0

/-- All characters are ASCII decimal digits. -/
def allDigits (l : List Char) : Bool := l.all Char.isDigit

/-- `10 ^ k` as a rational, for an integer exponent. -/
def qpow10 (k : ℤ) : ℚ := if 0 ≤ k then ((10 ^ k.toNat : ℕ) : ℚ) else (((10 ^ (-k).toNat : ℕ) : ℚ))⁻¹

/-- Parse the exponent part (after the `e`/`E`): an optional sign and a
nonempty run of digits. -/
def parseExpPart : List Char → Option ℤ
  | '+' :: r => if r ≠ [] ∧ allDigits r then some (digitsToNat r) else none
  | '-' :: r => if r ≠ [] ∧ allDigits r then some (-(digitsToNat r : ℤ)) else none
  | r => if r ≠ [] ∧ allDigits r then some (digitsToNat r) else none

/-- Parse an unsigned decimal float literal into its exact value:
`some (M, f, E)` means the value is `M × 10^(E - f)` (mantissa digits `M`,
`f` fractional digits, exponent `E`). -/
def parseDecimalCore (s : List Char) : Option (ℕ × ℕ × ℤ) :=
  let mant := s.takeWhile (fun c => (c != 'e') && (c != 'E'))
  let expPart := s.dropWhile (fun c => (c != 'e') && (c != 'E'))
  let intPart := mant.takeWhile (fun c => c != '.')
  let dotPart := mant.dropWhile (fun c => c != '.')
  let fracPart := dotPart.drop 1
  if !allDigits intPart then none
  else if dotPart ≠ [] ∧ !allDigits fracPart then none
  else if intPart = [] ∧ fracPart = [] then none
  else
    match expPart with
    | [] => some (digitsToNat (intPart ++ fracPart), fracPart.length, 0)
    | _ :: expChars =>
        (parseExpPart expChars).map fun e => (digitsToNat (intPart ++ fracPart), fracPart.length, e)

/-- Parse an unsigned float literal (sign already stripped into `neg`). -/
def parseF64Core (s : List Char) (neg : Bool) : Option F64 :=
  let low := s.map Char.toLower
  if low = ['i', 'n', 'f'] ∨ low = ['i', 'n', 'f', 'i', 'n', 'i', 't', 'y'] then some (F64.inf neg)
  else if low = ['n', 'a', 'n'] then some (F64.nan neg)
  else
    (parseDecimalCore s).map fun t =>
      if t.1 = 0 then (if neg then F64.negZero else F64.finite 0)
      else applySign neg (roundPos ((t.1 : ℚ) * qpow10 (t.2.2 - t.2.1)))

/-- Rust's `str::parse::<f64>`: an optional sign, then an unsigned float
literal; the whole string must be consumed. -/
def parseF64 (l : List Char) : Option F64 :=
  if l.take 1 = ['+'] then parseF64Core (l.drop 1) false
  else if l.take 1 = ['-'] then parseF64Core (l.drop 1) true
  else parseF64Core l false

/-! ## Rust whitespace trimming (`str::trim`) -/

/-- `char::is_whitespace`: the Unicode `White_Space` property. -/
def rustIsWhitespace (c : Char) : Bool :=
  let n := c.toNat
  (0x09 ≤ n ∧ n ≤ 0x0D) ∨ n = 0x20 ∨ n = 0x85 ∨ n = 0xA0 ∨ n = 0x1680 ∨
    (0x2000 ≤ n ∧ n ≤ 0x200A) ∨ n = 0x2028 ∨ n = 0x2029 ∨ n = 0x202F ∨ n = 0x205F ∨ n = 0x3000

/-- `str::trim`: strip leading and trailing whitespace. -/
def rustTrim (s : List Char) : List Char :=
  ((s.dropWhile rustIsWhitespace).reverse.dropWhile rustIsWhitespace).reverse

deriving instance DecidableEq for Except

/-! ## `std::time::Duration` and `tikv_util::time` -/

/-- `std::time::Duration`: whole seconds plus sub-second nanoseconds.
Every value constructed by this codec satisfies `nanos < 10^9`. -/
structure Duration where
  secs : ℕ
  nanos : ℕ
deriving DecidableEq, Repr

/-- `Duration::new`: carries surplus nanoseconds into the seconds
(none of the codec's call sites produce `nanos ≥ 10^9`). -/
def Duration.new (s n : ℕ) : Duration := ⟨s + n / 1000000000, n % 1000000000⟩

/-- `Duration::from_millis`. -/
def Duration.from_millis (ms : ℕ) : Duration := ⟨ms / 1000, (ms % 1000) * 1000000⟩

/-- `Duration::as_millis` (a `u128`, so the arithmetic never wraps). -/
def Duration.as_millis_u128 (d : Duration) : ℕ := d.secs * 1000 + d.nanos / 1000000

/-- `tikv_util::time::duration_to_ms` (time.rs lines 8-12): `u64`
arithmetic, so the result is reduced modulo `2^64` (release-profile
wrapping semantics; the claims below never depend on the wrapped range). -/
def duration_to_ms (d : Duration) : ℕ := (d.secs * 1000 + d.nanos / 1000000) % 2 ^ 64

/-! ## `ReadableDuration` and `ConfigValue` (config.rs) -/

/-- `pub struct ReadableDuration(pub Duration)` (config.rs line 40). -/
structure ReadableDuration where
  dur : Duration
deriving DecidableEq, Repr

/-- `pub enum ConfigValue { Duration(u64) }` (config.rs lines 22-24). -/
inductive ConfigValue where
  | Duration (v : ℕ)
deriving DecidableEq, Repr

/-- `impl From<ReadableDuration> for ConfigValue` (config.rs lines 49-53):
`ConfigValue::Duration(duration.0.as_millis() as u64)`; the `as u64` cast
from `u128` truncates modulo `2^64`. -/
def ReadableDuration.into_config (d : ReadableDuration) : ConfigValue :=
  ConfigValue.Duration (d.dur.as_millis_u128 % 2 ^ 64)

/-- `impl Into<ReadableDuration> for ConfigValue` (config.rs lines 55-63):
the `if let` has exactly one variant to match, so the `panic!` branch
does not exist in the match. -/
def ConfigValue.into_duration : ConfigValue → ReadableDuration
  | ConfigValue.Duration d => ⟨Duration.from_millis d⟩

/-- `ReadableDuration::secs` (config.rs). -/
def ReadableDuration.secs (s : ℕ) : ReadableDuration := ⟨Duration.new s 0⟩

/-- `ReadableDuration::millis` (config.rs). -/
def ReadableDuration.millis (ms : ℕ) : ReadableDuration :=
  ⟨Duration.new (ms / 1000) ((ms % 1000) * 1000000)⟩

/-- `ReadableDuration::minutes` (config.rs). -/
def ReadableDuration.minutes (m : ℕ) : ReadableDuration := ReadableDuration.secs (m * 60)

/-- `ReadableDuration::hours` (config.rs). -/
def ReadableDuration.hours (h : ℕ) : ReadableDuration := ReadableDuration.minutes (h * 60)

/-- `ReadableDuration::days` (config.rs). -/
def ReadableDuration.days (d : ℕ) : ReadableDuration := ReadableDuration.hours (d * 24)

/-- `ReadableDuration::as_millis` (config.rs). -/
def ReadableDuration.as_millis (d : ReadableDuration) : ℕ := duration_to_ms d.dur

/-! ## The parser (`impl FromStr for ReadableDuration`, config.rs 66-113) -/

/-- The parser's error messages (config.rs lines 72, 94, 108).  In the
spec's terms: `errMsg` is `InvalidEncoding`, `orderMsg` is
`UnitOrderViolation`, `negMsg` is `NegativeDuration`. -/
def errMsg : String := "valid duration, only d, h, m, s, ms are supported."

/-- `UnitOrderViolation` message (config.rs line 94). -/
def orderMsg : String := "d, h, m, s, ms should occur in given order."

/-- `NegativeDuration` message (config.rs line 108). -/
def negMsg : String := "duration should be positive."

/-- A unit character, i.e. a byte of `b"dhms"` (config.rs line 78). -/
def isUnitChar (c : Char) : Bool := c = 'd' ∨ c = 'h' ∨ c = 'm' ∨ c = 's'

/-- Match the unit token at the start of `second` (config.rs lines 79-92):
`ms` is checked first (`second.starts_with(b"ms")`), then the single
characters; returns the unit weight and how many bytes were consumed.
`none` corresponds to the (unreachable) `_ => return Err(err_msg)` arm. -/
def matchUnit (second : List Char) : Option (ℕ × ℕ) :=
  if second.take 2 = ['m', 's'] then some (MS, 2)
  else
    match second with
    | 'd' :: _ => some (DAY, 1)
    | 'h' :: _ => some (HOUR, 1)
    | 'm' :: _ => some (MINUTE, 1)
    | 's' :: _ => some (SECOND, 1)
    | _ => none

/-- The `while let Some(idx) = left.iter().position(...)` loop of
`from_str` (config.rs lines 78-103).  `first`/`second` are the two halves
of `split_at(idx)`; on loop exit it returns the accumulator and the
remaining slice `left`.  The fuel argument is strictly larger than
`left.length` at every call, so the `0` case is unreachable. -/
def parseLoop : ℕ → List Char → ℕ → F64 → Except String (F64 × List Char)
  | 0, _, _, _ => Except.error "internal: fuel exhausted"
  | fuel + 1, left, lastUnit, dur =>
    let first := left.takeWhile (fun c => !isUnitChar c)
    let second := left.dropWhile (fun c => !isUnitChar c)
    if second.isEmpty then Except.ok (dur, left)
    else
      match matchUnit second with
      | none => Except.error errMsg
      | some (w, adv) =>
        if lastUnit ≤ w then Except.error orderMsg
        else
          match parseF64 (rustTrim first) with
          | none => Except.error errMsg
          | some n => parseLoop fuel (second.drop adv) w (fadd dur (fmul n (natToF64 w)))

/-- `impl FromStr for ReadableDuration` (config.rs lines 66-113): trim,
ASCII check, segment loop, leftover check, sign check, and the final
`dur as u64` conversion into seconds and sub-second nanoseconds. -/
def from_str (durStr : String) : Except String ReadableDuration :=
  let t := rustTrim durStr.data
  if !t.all (fun c => decide (c.toNat < 128)) then
    Except.error ("unexpect ascii string: " ++ String.mk t)
  else
    match parseLoop (t.length + 1) t (DAY + 1) (F64.finite 0) with
    | Except.error e => Except.error e
    | Except.ok (dur, left) =>
      if !left.isEmpty then Except.error errMsg
      else if dur.sign then Except.error negMsg
      else
        let du := castU64 dur
        Except.ok ⟨Duration.new (du / SECOND) ((du % SECOND) * 1000000)⟩

/-! ## The formatter (`impl fmt::Display for ReadableDuration`,
config.rs 153-187) -/

/-- `digitChar n` is the decimal digit character for `n < 10`. -/
def digitChar (n : ℕ) : Char := Char.ofNat (48 + n)

/-- Fuel-based decimal printing helper (fuel strictly larger than `n`
always suffices, since `n` shrinks by a factor of ten each step). -/
def natDigitsAux : ℕ → ℕ → List Char → List Char
  | 0, _, acc => acc
  | f + 1, n, acc =>
    if n < 10 then digitChar n :: acc else natDigitsAux f (n / 10) (digitChar (n % 10) :: acc)

/-- The decimal digit string of `n` (Rust's `u64` `Display`). -/
def natDigits (n : ℕ) : List Char := natDigitsAux (n + 1) n []

/-- The body of `Display for ReadableDuration` (config.rs lines 155-186)
over a total-millisecond count: each step is one of the source's `if`
blocks, threading (output so far, remaining `dur`, `written`). -/
def fmtChars (ms0 : ℕ) : List Char :=
  let p1 := if DAY ≤ ms0 then (natDigits (ms0 / DAY) ++ ['d'], ms0 % DAY, true)
            else (([] : List Char), ms0, false)
  let p2 := if HOUR ≤ p1.2.1 then (p1.1 ++ natDigits (p1.2.1 / HOUR) ++ ['h'], p1.2.1 % HOUR, true)
            else p1
  let p3 := if MINUTE ≤ p2.2.1 then (p2.1 ++ natDigits (p2.2.1 / MINUTE) ++ ['m'], p2.2.1 % MINUTE, true)
            else p2
  let p4 := if SECOND ≤ p3.2.1 then (p3.1 ++ natDigits (p3.2.1 / SECOND) ++ ['s'], p3.2.1 % SECOND, true)
            else p3
  let p5 := if 0 < p4.2.1 then (p4.1 ++ natDigits p4.2.1 ++ ['m', 's'], true) else (p4.1, p4.2.2)
  if p5.2 then p5.1 else ['0', 's']

/-- `impl fmt::Display for ReadableDuration` (config.rs lines 153-187). -/
def ReadableDuration.fmt (d : ReadableDuration) : String :=
  String.mk (fmtChars (duration_to_ms d.dur))

/-! ## List helpers -/

theorem takeWhile_append_of_all {p : Char → Bool} :
    ∀ {a b : List Char}, (∀ c ∈ a, p c = true) → (a ++ b).takeWhile p = a ++ b.takeWhile p := by
  intro a
  induction a with
  | nil => intro b _; simp
  | cons x xs ih =>
    intro b h
    have hx : p x = true := h x (by simp)
    simp [List.takeWhile_cons, hx, ih fun c hc => h c (by simp [hc])]

theorem dropWhile_append_of_all {p : Char → Bool} :
    ∀ {a b : List Char}, (∀ c ∈ a, p c = true) → (a ++ b).dropWhile p = b.dropWhile p := by
  intro a
  induction a with
  | nil => intro b _; simp
  | cons x xs ih =>
    intro b h
    have hx : p x = true := h x (by simp)
    simp [List.dropWhile_cons, hx, ih fun c hc => h c (by simp [hc])]

theorem takeWhile_cons_of_neg {p : Char → Bool} {c : Char} {l : List Char} (h : p c = false) :
    (c :: l).takeWhile p = [] := by
  simp [List.takeWhile_cons, h]

theorem dropWhile_cons_of_neg {p : Char → Bool} {c : Char} {l : List Char} (h : p c = false) :
    (c :: l).dropWhile p = c :: l := by
  simp [List.dropWhile_cons, h]

theorem mem_of_mem_rustTrim {c : Char} {l : List Char} (h : c ∈ rustTrim l) : c ∈ l := by
  unfold rustTrim at h
  rw [List.mem_reverse] at h
  have h1 := (List.dropWhile_sublist (l := (l.dropWhile rustIsWhitespace).reverse)
    (p := rustIsWhitespace)).subset h
  rw [List.mem_reverse] at h1
  exact (List.dropWhile_sublist (l := l) (p := rustIsWhitespace)).subset h1

/-! ## Rounding lemmas -/

theorem log2fuel_spec :
    ∀ (f n : ℕ), 0 < n → n ≤ f → 2 ^ log2fuel f n ≤ n ∧ n < 2 ^ (log2fuel f n + 1) := by
  intro f
  induction f with
  | zero => intro n h1 h2; omega
  | succ f ih =>
    intro n h1 h2
    by_cases hn : n ≤ 1
    · have : n = 1 := by omega
      subst this
      simp [log2fuel]
    · have hrec : 0 < n / 2 := by omega
      have hle : n / 2 ≤ f := by omega
      obtain ⟨ih1, ih2⟩ := ih (n / 2) hrec hle
      simp only [log2fuel, hn, if_false]
      rw [pow_succ, pow_succ] at *
      omega

theorem natLog2_spec (n : ℕ) (h : 0 < n) : 2 ^ natLog2 n ≤ n ∧ n < 2 ^ (natLog2 n + 1) :=
  log2fuel_spec n n h le_rfl

theorem zpow2_nonneg_eq (a : ℕ) : zpow2 (a : ℤ) = ((2 ^ a : ℕ) : ℚ) := by
  simp [zpow2, Int.toNat_natCast]

theorem zpow2_neg_natCast (b : ℕ) : zpow2 (-(b : ℤ)) = (((2 ^ b : ℕ) : ℚ))⁻¹ := by
  by_cases hb : b = 0
  · subst hb
    simp [zpow2]
  · have hneg : ¬ (0 : ℤ) ≤ -(b : ℤ) := by omega
    have hty : (-(-(b : ℤ))).toNat = b := by omega
    simp [zpow2, hneg, hty]

theorem zpow2_pos (k : ℤ) : 0 < zpow2 k := by
  unfold zpow2
  split
  · positivity
  · positivity

/-- For `1 ≤ q`, `floorLog2` is correct: `2 ^ floorLog2 q ≤ q < 2 ^ (floorLog2 q + 1)`. -/
theorem floorLog2_spec_of_one_le (q : ℚ) (h : 1 ≤ q) :
    zpow2 (floorLog2 q) ≤ q ∧ q < zpow2 (floorLog2 q + 1) := by
  have hfloor : (1 : ℤ) ≤ ⌊q⌋ := by
    rwa [Int.le_floor, Int.cast_one]
  set n : ℕ := ⌊q⌋.toNat with hn
  have hn1 : 1 ≤ n := by omega
  have hcast : ((n : ℤ) : ℚ) = ((⌊q⌋ : ℤ) : ℚ) := by
    congr 1
    omega
  obtain ⟨hl, hr⟩ := natLog2_spec n hn1
  have hfl : floorLog2 q = (natLog2 n : ℤ) := by
    simp [floorLog2, h, hn]
  rw [hfl]
  constructor
  · rw [zpow2_nonneg_eq]
    calc ((2 ^ natLog2 n : ℕ) : ℚ) ≤ (n : ℚ) := by exact_mod_cast hl
    _ = ((⌊q⌋ : ℤ) : ℚ) := by exact_mod_cast hcast
    _ ≤ q := Int.floor_le q
  · have hty : ((natLog2 n : ℤ) + 1) = ((natLog2 n + 1 : ℕ) : ℤ) := by omega
    rw [hty, zpow2_nonneg_eq]
    have hq : q < (⌊q⌋ : ℚ) + 1 := Int.lt_floor_add_one q
    have hstep : ((⌊q⌋ : ℤ) : ℚ) + 1 ≤ ((2 ^ (natLog2 n + 1) : ℕ) : ℚ) := by
      rw [← hcast]
      have hnq : (n : ℚ) + 1 ≤ ((2 ^ (natLog2 n + 1) : ℕ) : ℚ) := by
        have : n + 1 ≤ 2 ^ (natLog2 n + 1) := hr
        exact_mod_cast this
      push_cast at hnq ⊢
      linarith
    linarith

/-- Rounding an integer to the nearest integer is the identity. -/
theorem rne_intCast (m : ℤ) : rne (m : ℚ) = m := by
  unfold rne
  have h1 : ⌊(m : ℚ)⌋ = m := Int.floor_intCast m
  simp [h1]

theorem rne_natCast (m : ℕ) : rne (m : ℚ) = (m : ℤ) := by
  have := rne_intCast (m : ℤ)
  rwa [Int.cast_natCast] at this

/-- An integer `1 ≤ n ≤ 2^53` is exactly representable: rounding is exact. -/
theorem roundPos_nat_exact (n : ℕ) (h1 : 0 < n) (h2 : n ≤ 2 ^ 53) :
    roundPos (n : ℚ) = F64.finite (n : ℚ) := by
  have hq1 : (1 : ℚ) ≤ (n : ℚ) := by exact_mod_cast h1
  have hfl : floorLog2 (n : ℚ) = (natLog2 n : ℤ) := by
    simp [floorLog2, hq1, Int.floor_natCast]
  obtain ⟨hl, hr⟩ := natLog2_spec n h1
  set K : ℕ := natLog2 n with hK
  have hK53 : K ≤ 53 := by
    by_contra hgt
    have hp : (2 : ℕ) ^ 54 ≤ 2 ^ K := Nat.pow_le_pow_right (by norm_num) (by omega)
    have : (2 : ℕ) ^ 54 ≤ n := le_trans hp hl
    norm_num at this
    omega
  by_cases hK52 : K ≤ 52
  · -- the scaled mantissa n * 2 ^ (52 - K) is an integer; rounding is exact
    have hmax : max ((K : ℤ) - 52) (-1074) = -((52 - K : ℕ) : ℤ) := by
      rw [max_eq_left (by omega)]
      omega
    have hz : zpow2 (-((52 - K : ℕ) : ℤ)) = (((2 ^ (52 - K) : ℕ) : ℚ))⁻¹ :=
      zpow2_neg_natCast (52 - K)
    have hpne : ((2 ^ (52 - K) : ℕ) : ℚ) ≠ 0 := by positivity
    have hdiv : (n : ℚ) / zpow2 (-((52 - K : ℕ) : ℤ)) = ((n * 2 ^ (52 - K) : ℕ) : ℚ) := by
      rw [hz, div_eq_mul_inv, inv_inv]
      push_cast
      ring
    have hval : (((n * 2 ^ (52 - K) : ℕ) : ℤ) : ℚ) * zpow2 (-((52 - K : ℕ) : ℤ)) = (n : ℚ) := by
      rw [hz]
      push_cast
      field_simp
    have hm0 : ¬ ((n * 2 ^ (52 - K) : ℕ) : ℤ) ≤ 0 := by
      have : 0 < n * 2 ^ (52 - K) := by positivity
      omega
    have hbig : ¬ (((2 ^ 256 : ℕ) ^ 4 : ℕ) : ℚ) ≤ (n : ℚ) := by
      push_neg
      have hlt : (n : ℕ) < (2 ^ 256 : ℕ) ^ 4 := by
        calc n ≤ 2 ^ 53 := h2
        _ < (2 ^ 256) ^ 4 := by norm_num
      exact_mod_cast hlt
    simp only [roundPos, hfl, hmax, hdiv, rne_natCast, hm0, if_false, hval, hbig]
  · -- K = 53 forces n = 2 ^ 53 exactly
    have hn : n = 2 ^ 53 := by
      have h53 : K = 53 := by omega
      rw [h53] at hl
      omega
    subst hn
    norm_num
    decide

/-- `u64 as f64` is exact up to `2^53`. -/
theorem natToF64_exact (n : ℕ) (h : n ≤ 2 ^ 53) : natToF64 n = F64.finite (n : ℚ) := by
  by_cases h0 : n = 0
  · subst h0
    simp [natToF64]
  · simp only [natToF64, h0, if_false]
    exact roundPos_nat_exact n (by omega) h

/-- Multiplying two naturals whose product stays at or below `2^53` is
exact in binary64. -/
theorem fmul_nat_exact (a b : ℕ) (h : a * b ≤ 2 ^ 53) :
    fmul (F64.finite (a : ℚ)) (F64.finite (b : ℚ)) = F64.finite ((a * b : ℕ) : ℚ) := by
  have hprod : (a : ℚ) * (b : ℚ) = ((a * b : ℕ) : ℚ) := by push_cast; ring
  have hna : ¬ (a : ℚ) < 0 := not_lt.mpr (Nat.cast_nonneg a)
  have hnb : ¬ (b : ℚ) < 0 := not_lt.mpr (Nat.cast_nonneg b)
  simp only [fmul, hprod]
  by_cases h0 : a * b = 0
  · rw [h0]
    simp [hna, hnb]
  · have hpos : (0 : ℚ) < ((a * b : ℕ) : ℚ) := by
      have : 0 < a * b := by omega
      exact_mod_cast this
    rw [if_neg (ne_of_gt hpos), if_neg (not_lt.mpr (le_of_lt hpos))]
    exact roundPos_nat_exact (a * b) (by omega) h

/-- Adding two naturals whose sum stays at or below `2^53` is exact in
binary64. -/
theorem fadd_nat_exact (a b : ℕ) (h : a + b ≤ 2 ^ 53) :
    fadd (F64.finite (a : ℚ)) (F64.finite (b : ℚ)) = F64.finite ((a + b : ℕ) : ℚ) := by
  have hsum : (a : ℚ) + (b : ℚ) = ((a + b : ℕ) : ℚ) := by push_cast; ring
  simp only [fadd, hsum]
  by_cases h0 : a + b = 0
  · rw [h0]
    simp
  · have hpos : (0 : ℚ) < ((a + b : ℕ) : ℚ) := by
      have : 0 < a + b := by omega
      exact_mod_cast this
    rw [if_neg (ne_of_gt hpos), if_neg (not_lt.mpr (le_of_lt hpos))]
    exact roundPos_nat_exact (a + b) (by omega) h

/-- Casting an exactly held natural back to `u64` is the identity below
`2^64`. -/
theorem castU64_nat (n : ℕ) (h : n < 2 ^ 64) : castU64 (F64.finite (n : ℚ)) = n := by
  by_cases h0 : n = 0
  · subst h0
    simp [castU64]
  · have hq : ¬ (n : ℚ) ≤ 0 := by
      push_neg
      exact_mod_cast Nat.pos_of_ne_zero h0
    have hbig : ¬ ((2 ^ 64 : ℕ) : ℚ) ≤ (n : ℚ) := by
      push_neg
      exact_mod_cast h
    simp only [castU64]
    rw [if_neg hq, if_neg hbig, Int.floor_natCast, Int.toNat_natCast]

/-! ## Sign-bit lemmas -/

theorem roundPos_sign (q : ℚ) : (roundPos q).sign = false := by
  simp only [roundPos]
  split
  next => simp [F64.sign]
  next h0 =>
    split
    next => simp [F64.sign]
    next =>
      have hm : (0 : ℚ) <
          (rne (q / zpow2 (max (floorLog2 q - 52) (-1074))) : ℚ) *
            zpow2 (max (floorLog2 q - 52) (-1074)) := by
        have hm1 : (0 : ℚ) < (rne (q / zpow2 (max (floorLog2 q - 52) (-1074))) : ℚ) := by
          exact_mod_cast not_le.mp h0
        exact mul_pos hm1 (zpow2_pos _)
      simp [F64.sign, not_lt.mpr (le_of_lt hm)]

theorem applySign_false_roundPos_sign (q : ℚ) : (applySign false (roundPos q)).sign = false := by
  have h := roundPos_sign q
  cases hr : roundPos q with
  | nan b => simp [applySign, F64.sign]
  | inf b => simp [applySign, F64.sign]
  | negZero => simp [applySign, F64.sign]
  | finite x =>
    rw [hr] at h
    simpa [applySign, F64.sign] using h

/-- Multiplying a non-negative value by a positive finite value keeps the
sign bit clear. -/
theorem fmul_sign_false (a : F64) (w : ℚ) (ha : a.sign = false) (hw : 0 < w) :
    (fmul a (F64.finite w)).sign = false := by
  have hwneg : ¬ w < 0 := not_lt.mpr (le_of_lt hw)
  have hw0 : ¬ w = 0 := ne_of_gt hw
  cases a with
  | nan s =>
    simp only [F64.sign] at ha
    simp [fmul, ha, F64.sign]
  | inf s =>
    simp only [F64.sign] at ha
    simp [fmul, ha, hw0, hwneg, F64.sign]
  | negZero => simp [F64.sign] at ha
  | finite p =>
    simp only [F64.sign, decide_eq_false_iff_not] at ha
    simp only [fmul]
    by_cases hr : p * w = 0
    · simp [hr, ha, hwneg, F64.sign]
    · have hp0 : 0 ≤ p := le_of_not_lt ha
      have hrpos : ¬ p * w < 0 := not_lt.mpr (mul_nonneg hp0 (le_of_lt hw))
      rw [if_neg hr, if_neg hrpos]
      exact roundPos_sign _

/-- Adding two values with clear sign bits keeps the sign bit clear. -/
theorem fadd_sign_false (a b : F64) (ha : a.sign = false) (hb : b.sign = false) :
    (fadd a b).sign = false := by
  cases a with
  | nan s =>
    simp only [F64.sign] at ha
    simp [fadd, ha, F64.sign]
  | negZero => simp [F64.sign] at ha
  | inf s =>
    simp only [F64.sign] at ha
    cases b with
    | nan t =>
      simp only [F64.sign] at hb
      simp [fadd, ha, hb, F64.sign]
    | inf t =>
      simp only [F64.sign] at hb
      simp [fadd, ha, hb, F64.sign]
    | negZero => simp [F64.sign] at hb
    | finite q => simp [fadd, ha, F64.sign]
  | finite p =>
    simp only [F64.sign, decide_eq_false_iff_not] at ha
    have hp0 : 0 ≤ p := le_of_not_lt ha
    cases b with
    | nan t =>
      simp only [F64.sign] at hb
      simp [fadd, hb, F64.sign]
    | inf t =>
      simp only [F64.sign] at hb
      simp [fadd, hb, F64.sign]
    | negZero => simp [fadd, F64.sign, ha]
    | finite q =>
      simp only [F64.sign, decide_eq_false_iff_not] at hb
      have hq0 : 0 ≤ q := le_of_not_lt hb
      simp only [fadd]
      by_cases hr : p + q = 0
      · simp [hr, F64.sign]
      · have hrneg : ¬ p + q < 0 := not_lt.mpr (add_nonneg hp0 hq0)
        rw [if_neg hr, if_neg hrneg]
        exact roundPos_sign _

/-! ## Decimal digit-string lemmas -/

theorem digitChar_toNat (k : ℕ) (h : k < 10) : (digitChar k).toNat = 48 + k := by
  interval_cases k <;> decide

theorem digitChar_isDigit (k : ℕ) (h : k < 10) : (digitChar k).isDigit = true := by
  interval_cases k <;> decide

theorem isDigit_toNat {c : Char} (h : c.isDigit = true) : 48 ≤ c.toNat ∧ c.toNat ≤ 57 := by
  simp only [Char.isDigit, Bool.and_eq_true, decide_eq_true_eq] at h
  obtain ⟨h1, h2⟩ := h
  constructor
  · exact h1
  · exact h2

theorem natDigitsAux_acc :
    ∀ (f n : ℕ) (acc : List Char), natDigitsAux f n acc = natDigitsAux f n [] ++ acc := by
  intro f
  induction f with
  | zero => intro n acc; simp [natDigitsAux]
  | succ f ih =>
    intro n acc
    by_cases h : n < 10
    · simp [natDigitsAux, h]
    · simp only [natDigitsAux, h, if_false]
      rw [ih (n / 10) (digitChar (n % 10) :: acc), ih (n / 10) [digitChar (n % 10)]]
      simp

theorem natDigitsAux_fuel :
    ∀ (n f g : ℕ), n < f → n < g → natDigitsAux f n [] = natDigitsAux g n [] := by
  intro n
  induction n using Nat.strong_induction_on with
  | _ n ih =>
    intro f g hf hg
    match f, g with
    | f + 1, g + 1 =>
      by_cases h : n < 10
      · simp [natDigitsAux, h]
      · simp only [natDigitsAux, h, if_false]
        rw [natDigitsAux_acc f, natDigitsAux_acc g]
        rw [ih (n / 10) (by omega) f g (by omega) (by omega)]

theorem natDigits_lt10 (n : ℕ) (h : n < 10) : natDigits n = [digitChar n] := by
  simp [natDigits, natDigitsAux, h]

theorem natDigitsAux_succ (f n : ℕ) (acc : List Char) :
    natDigitsAux (f + 1) n acc =
      if n < 10 then digitChar n :: acc else natDigitsAux f (n / 10) (digitChar (n % 10) :: acc) :=
  rfl

theorem natDigits_step (n : ℕ) (h : 10 ≤ n) :
    natDigits n = natDigits (n / 10) ++ [digitChar (n % 10)] := by
  have h' : ¬ n < 10 := by omega
  rw [natDigits, natDigitsAux_succ, if_neg h', natDigitsAux_acc,
    natDigitsAux_fuel (n / 10) n (n / 10 + 1) (by omega) (by omega)]
  rfl

theorem natDigits_ne_nil (n : ℕ) : natDigits n ≠ [] := by
  by_cases h : n < 10
  · rw [natDigits_lt10 n h]
    simp
  · rw [natDigits_step n (by omega)]
    simp

theorem natDigits_all_digit (n : ℕ) : ∀ c ∈ natDigits n, c.isDigit = true := by
  induction n using Nat.strong_induction_on with
  | _ n ih =>
    by_cases h : n < 10
    · rw [natDigits_lt10 n h]
      intro c hc
      simp at hc
      subst hc
      exact digitChar_isDigit n h
    · rw [natDigits_step n (by omega)]
      intro c hc
      rw [List.mem_append] at hc
      rcases hc with hc | hc
      · exact ih (n / 10) (by omega) c hc
      · simp at hc
        subst hc
        exact digitChar_isDigit (n % 10) (by omega)

theorem digitsToNat_foldl_init (l : List Char) :
    ∀ i : ℕ, l.foldl (fun a c => a * 10 + (c.toNat - 48)) i
      = i * 10 ^ l.length + digitsToNat l := by
  induction l with
  | nil => intro i; simp [digitsToNat]
  | cons c cs ih =>
    intro i
    simp only [List.foldl_cons, digitsToNat]
    rw [ih (i * 10 + (c.toNat - 48)), ih (0 * 10 + (c.toNat - 48))]
    simp [List.length_cons, pow_succ]
    ring

theorem digitsToNat_append (a b : List Char) :
    digitsToNat (a ++ b) = digitsToNat a * 10 ^ b.length + digitsToNat b := by
  unfold digitsToNat
  rw [List.foldl_append]
  exact digitsToNat_foldl_init b _

theorem digitsToNat_natDigits (n : ℕ) : digitsToNat (natDigits n) = n := by
  induction n using Nat.strong_induction_on with
  | _ n ih =>
    by_cases h : n < 10
    · rw [natDigits_lt10 n h]
      simp [digitsToNat, digitChar_toNat n h]
    · rw [natDigits_step n (by omega), digitsToNat_append, ih (n / 10) (by omega)]
      have h10 : (10 : ℕ) ≤ n := by omega
      simp [digitsToNat, digitChar_toNat (n % 10) (by omega)]
      omega

/-! ## `parseF64` on pure digit strings -/

theorem takeWhile_of_all {p : Char → Bool} {l : List Char} (h : ∀ c ∈ l, p c = true) :
    l.takeWhile p = l := by
  have := takeWhile_append_of_all (b := []) h
  simpa using this

theorem dropWhile_of_all {p : Char → Bool} {l : List Char} (h : ∀ c ∈ l, p c = true) :
    l.dropWhile p = [] := by
  have := dropWhile_append_of_all (b := []) h
  simpa using this

theorem dropWhile_of_all_neg {p : Char → Bool} {l : List Char} (h : ∀ c ∈ l, p c = false) :
    l.dropWhile p = l := by
  cases l with
  | nil => rfl
  | cons c cs => exact dropWhile_cons_of_neg (h c (by simp))

theorem rustTrim_of_no_ws {l : List Char} (h : ∀ c ∈ l, rustIsWhitespace c = false) :
    rustTrim l = l := by
  unfold rustTrim
  rw [dropWhile_of_all_neg h, dropWhile_of_all_neg (fun c hc => h c (List.mem_reverse.mp hc)),
    List.reverse_reverse]

theorem isDigit_ne_of_not_digit {c : Char} (d : Char) (h : c.isDigit = true)
    (hd : d.isDigit = false) : c ≠ d := by
  intro hcd
  subst hcd
  rw [h] at hd
  exact absurd hd (by simp)

theorem isDigit_toLower {c : Char} (h : c.isDigit = true) : c.toLower = c := by
  obtain ⟨h1, h2⟩ := isDigit_toNat h
  unfold Char.toLower
  rw [if_neg (by omega)]

theorem isDigit_not_unitChar {c : Char} (h : c.isDigit = true) : isUnitChar c = false := by
  have hd := isDigit_ne_of_not_digit 'd' h (by decide)
  have hh := isDigit_ne_of_not_digit 'h' h (by decide)
  have hm := isDigit_ne_of_not_digit 'm' h (by decide)
  have hs := isDigit_ne_of_not_digit 's' h (by decide)
  simp [isUnitChar, hd, hh, hm, hs]

theorem isDigit_not_ws {c : Char} (h : c.isDigit = true) : rustIsWhitespace c = false := by
  obtain ⟨h1, h2⟩ := isDigit_toNat h
  simp only [rustIsWhitespace, decide_eq_false_iff_not]
  omega

theorem isDigit_ascii {c : Char} (h : c.isDigit = true) : c.toNat < 128 := by
  obtain ⟨h1, h2⟩ := isDigit_toNat h
  omega

theorem map_toLower_of_digits {l : List Char} (h : ∀ c ∈ l, c.isDigit = true) :
    l.map Char.toLower = l := by
  induction l with
  | nil => rfl
  | cons c cs ih =>
    rw [List.map_cons, isDigit_toLower (h c (by simp)), ih fun x hx => h x (by simp [hx])]

theorem applySign_false_roundPos_eq (q : ℚ) : applySign false (roundPos q) = roundPos q := by
  simp only [roundPos]
  split
  next => simp [applySign]
  next =>
    split
    next => simp [applySign]
    next => simp [applySign]

theorem parseF64Core_digits (l : List Char) (hne : l ≠ [])
    (hdig : ∀ c ∈ l, c.isDigit = true) :
    parseF64Core l false = some (natToF64 (digitsToNat l)) := by
  have hlow : l.map Char.toLower = l := map_toLower_of_digits hdig
  have hmemi : 'i' ∉ l := by
    intro hmem
    have := hdig 'i' hmem
    simp at this
  have hmemn : 'n' ∉ l := by
    intro hmem
    have := hdig 'n' hmem
    simp at this
  have hinf : ¬ (l = ['i', 'n', 'f'] ∨ l = ['i', 'n', 'f', 'i', 'n', 'i', 't', 'y']) := by
    rintro (h | h) <;> exact hmemi (by rw [h]; simp)
  have hnan : ¬ l = ['n', 'a', 'n'] := by
    intro h
    exact hmemn (by rw [h]; simp)
  have heE : ∀ x ∈ l, ((x != 'e') && (x != 'E')) = true := by
    intro x hx
    have hxd := hdig x hx
    have h1 := isDigit_ne_of_not_digit 'e' hxd (by decide)
    have h2 := isDigit_ne_of_not_digit 'E' hxd (by decide)
    simp [h1, h2]
  have hdot : ∀ x ∈ l, (x != '.') = true := by
    intro x hx
    have h1 := isDigit_ne_of_not_digit '.' (hdig x hx) (by decide)
    simp [h1]
  have hall : allDigits l = true := by
    simp only [allDigits, List.all_eq_true]
    exact hdig
  have hdec : parseDecimalCore l = some (digitsToNat l, 0, 0) := by
    simp only [parseDecimalCore]
    rw [takeWhile_of_all heE, dropWhile_of_all heE, takeWhile_of_all hdot,
      dropWhile_of_all hdot]
    simp [hall, hne]
  simp only [parseF64Core, hlow]
  rw [if_neg hinf, if_neg hnan, hdec]
  simp only [Option.map]
  congr 1
  by_cases h0 : digitsToNat l = 0
  · simp [h0, natToF64]
  · simp only [h0, if_false, natToF64]
    have hq10 : qpow10 ((0 : ℤ) - (0 : ℕ)) = 1 := by
      norm_num [qpow10]
    rw [hq10, mul_one, applySign_false_roundPos_eq]

theorem parseF64_digits (l : List Char) (hne : l ≠ [])
    (hdig : ∀ c ∈ l, c.isDigit = true) :
    parseF64 l = some (natToF64 (digitsToNat l)) := by
  obtain ⟨c, cs, rfl⟩ := List.exists_cons_of_ne_nil hne
  have hc : c.isDigit = true := hdig c (by simp)
  have hplus : c ≠ '+' := isDigit_ne_of_not_digit '+' hc (by decide)
  have hminus : c ≠ '-' := isDigit_ne_of_not_digit '-' hc (by decide)
  unfold parseF64
  rw [if_neg (by simp [hplus]), if_neg (by simp [hminus])]
  exact parseF64Core_digits (c :: cs) hne hdig

/-! ## Segment decomposition of the formatter -/

/-- The textual token of each unit weight. -/
def unitChars (w : ℕ) : List Char :=
  if w = DAY then ['d']
  else if w = HOUR then ['h']
  else if w = MINUTE then ['m']
  else if w = SECOND then ['s']
  else ['m', 's']

theorem unitChars_DAY : unitChars DAY = ['d'] := by decide
theorem unitChars_HOUR : unitChars HOUR = ['h'] := by decide
theorem unitChars_MINUTE : unitChars MINUTE = ['m'] := by decide
theorem unitChars_SECOND : unitChars SECOND = ['s'] := by decide
theorem unitChars_MS : unitChars MS = ['m', 's'] := by decide

/-- Render one `(value, weight)` segment. -/
def renderSeg (p : ℕ × ℕ) : List Char := natDigits p.1 ++ unitChars p.2

/-- Render a list of segments with no separators. -/
def renderSegs : List (ℕ × ℕ) → List Char
  | [] => []
  | p :: rest => renderSeg p ++ renderSegs rest

theorem renderSegs_append (a b : List (ℕ × ℕ)) :
    renderSegs (a ++ b) = renderSegs a ++ renderSegs b := by
  induction a with
  | nil => simp [renderSegs]
  | cons p rest ih => simp [renderSegs, ih]

/-- The division-remainder chain of the formatter over a list of unit
weights: the segments it emits (milliseconds excluded). -/
def fmtStepsNoMs : List ℕ → ℕ → List (ℕ × ℕ)
  | [], _ => []
  | w :: ws, rem => if w ≤ rem then (rem / w, w) :: fmtStepsNoMs ws (rem % w) else fmtStepsNoMs ws rem

/-- The remainder left after the division chain. -/
def remAfter : List ℕ → ℕ → ℕ
  | [], rem => rem
  | w :: ws, rem => remAfter ws (if w ≤ rem then rem % w else rem)

/-- The formatter's larger-than-millisecond weights, in emission order. -/
def fmtWeights : List ℕ := [DAY, HOUR, MINUTE, SECOND]

/-- The `(value, weight)` segments the formatter emits for a
total-millisecond count, in order. -/
def fmtSegments (m : ℕ) : List (ℕ × ℕ) :=
  fmtStepsNoMs fmtWeights m ++
    (if 0 < remAfter fmtWeights m then [(remAfter fmtWeights m, MS)] else [])

/-- Total milliseconds represented by a segment list. -/
def segsValue : List (ℕ × ℕ) → ℕ
  | [] => 0
  | (n, w) :: rest => n * w + segsValue rest

/-- A known unit weight. -/
def unitWeight (w : ℕ) : Prop := w = DAY ∨ w = HOUR ∨ w = MINUTE ∨ w = SECOND ∨ w = MS

/-- Well-formed segment lists: known unit weights, positive values, and
weights strictly decreasing below the bound. -/
def goodSegs : List (ℕ × ℕ) → ℕ → Prop
  | [], _ => True
  | (n, w) :: rest, last => unitWeight w ∧ 0 < n ∧ w < last ∧ goodSegs rest w

/-- Decreasing unit-weight chains below a bound. -/
def wsOK : List ℕ → ℕ → Prop
  | [], last => MS < last
  | w :: ws, last => unitWeight w ∧ 0 < w ∧ w < last ∧ wsOK ws w

/-- The source formatter, rephrased as a fold over the weight list
(bridging definition for the proofs below). -/
def fmtState : List ℕ → List Char × ℕ × Bool → List Char × ℕ × Bool
  | [], st => st
  | w :: ws, st =>
    fmtState ws
      (if w ≤ st.2.1 then (st.1 ++ natDigits (st.2.1 / w) ++ unitChars w, st.2.1 % w, true) else st)

theorem fmtChars_via_state (m : ℕ) :
    fmtChars m =
      (if (if 0 < (fmtState fmtWeights ([], m, false)).2.1 then
            ((fmtState fmtWeights ([], m, false)).1 ++
              natDigits (fmtState fmtWeights ([], m, false)).2.1 ++ ['m', 's'], true)
          else ((fmtState fmtWeights ([], m, false)).1,
            (fmtState fmtWeights ([], m, false)).2.2)).2 then
        (if 0 < (fmtState fmtWeights ([], m, false)).2.1 then
            ((fmtState fmtWeights ([], m, false)).1 ++
              natDigits (fmtState fmtWeights ([], m, false)).2.1 ++ ['m', 's'], true)
          else ((fmtState fmtWeights ([], m, false)).1,
            (fmtState fmtWeights ([], m, false)).2.2)).1
      else ['0', 's']) := by
  simp only [fmtChars, fmtWeights, fmtState, List.nil_append, unitChars_DAY, unitChars_HOUR,
    unitChars_MINUTE, unitChars_SECOND, List.append_assoc]

theorem fmtState_spec :
    ∀ (ws : List ℕ) (acc : List Char) (rem : ℕ) (written : Bool),
      fmtState ws (acc, rem, written) =
        (acc ++ renderSegs (fmtStepsNoMs ws rem), remAfter ws rem,
          written || !(fmtStepsNoMs ws rem).isEmpty) := by
  intro ws
  induction ws with
  | nil =>
    intro acc rem written
    simp [fmtState, fmtStepsNoMs, remAfter, renderSegs]
  | cons w ws ih =>
    intro acc rem written
    by_cases h : w ≤ rem
    · simp only [fmtState, fmtStepsNoMs, remAfter, h, if_true, ih]
      simp [renderSegs, renderSeg, List.append_assoc]
    · simp only [fmtState, fmtStepsNoMs, remAfter, h, if_false, ih]

/-- The formatter's output is exactly the rendering of its segments,
with `"0s"` when there are none. -/
theorem fmtChars_eq_render (m : ℕ) :
    fmtChars m = if fmtSegments m = [] then ['0', 's'] else renderSegs (fmtSegments m) := by
  rw [fmtChars_via_state, fmtState_spec]
  simp only [fmtSegments, List.nil_append]
  by_cases hR : 0 < remAfter fmtWeights m
  · simp only [hR, if_true]
    have hne : fmtStepsNoMs fmtWeights m ++ [(remAfter fmtWeights m, MS)] ≠ [] := by
      simp
    rw [if_neg hne, renderSegs_append]
    simp [renderSegs, renderSeg, unitChars_MS]
  · simp only [hR, if_false, List.append_nil]
    by_cases hS : fmtStepsNoMs fmtWeights m = []
    · simp [hS, renderSegs]
    · simp [hS, List.isEmpty_iff]

theorem segsValue_append (a b : List (ℕ × ℕ)) :
    segsValue (a ++ b) = segsValue a + segsValue b := by
  induction a with
  | nil => simp [segsValue]
  | cons p rest ih =>
    obtain ⟨n, w⟩ := p
    simp [segsValue, ih]
    omega

theorem fmtStepsNoMs_value :
    ∀ (ws : List ℕ) (rem : ℕ), (∀ w ∈ ws, 0 < w) →
      segsValue (fmtStepsNoMs ws rem) + remAfter ws rem = rem := by
  intro ws
  induction ws with
  | nil => intro rem _; simp [fmtStepsNoMs, remAfter, segsValue]
  | cons w ws ih =>
    intro rem hw
    have hw0 : 0 < w := hw w (by simp)
    by_cases h : w ≤ rem
    · simp only [fmtStepsNoMs, remAfter, h, if_true, segsValue]
      have := ih (rem % w) fun x hx => hw x (by simp [hx])
      have hdm := Nat.div_add_mod' rem w
      omega
    · simp only [fmtStepsNoMs, remAfter, h, if_false]
      exact ih rem fun x hx => hw x (by simp [hx])

/-- The emitted segments sum back to the total. -/
theorem segsValue_fmtSegments (m : ℕ) : segsValue (fmtSegments m) = m := by
  have hws : ∀ w ∈ fmtWeights, 0 < w := by decide
  have h := fmtStepsNoMs_value fmtWeights m hws
  rw [fmtSegments, segsValue_append]
  by_cases hR : 0 < remAfter fmtWeights m
  · simp only [hR, if_true, segsValue, MS, UNIT]
    omega
  · simp only [hR, if_false, segsValue]
    omega

theorem goodSegs_mono : ∀ (l : List (ℕ × ℕ)) (a b : ℕ), goodSegs l a → a ≤ b → goodSegs l b := by
  intro l
  induction l with
  | nil => intro a b _ _; trivial
  | cons p rest ih =>
    obtain ⟨n, w⟩ := p
    intro a b h hab
    obtain ⟨h1, h2, h3, h4⟩ := h
    exact ⟨h1, h2, by omega, h4⟩

theorem fmtSteps_good :
    ∀ (ws : List ℕ) (last rem : ℕ), wsOK ws last →
      goodSegs (fmtStepsNoMs ws rem ++
        (if 0 < remAfter ws rem then [(remAfter ws rem, MS)] else [])) last := by
  intro ws
  induction ws with
  | nil =>
    intro last rem hok
    simp only [fmtStepsNoMs, remAfter, List.nil_append]
    by_cases h : 0 < rem
    · simp only [h, if_true]
      exact ⟨Or.inr (Or.inr (Or.inr (Or.inr rfl))), h, hok, trivial⟩
    · simp only [h, if_false]
      trivial
  | cons w ws ih =>
    intro last rem hok
    obtain ⟨h1, h2, h3, h4⟩ := hok
    by_cases h : w ≤ rem
    · simp only [fmtStepsNoMs, remAfter, h, if_true, List.cons_append]
      exact ⟨h1, Nat.div_pos h h2, h3, ih w (rem % w) h4⟩
    · simp only [fmtStepsNoMs, remAfter, h, if_false]
      exact goodSegs_mono _ w last (ih w rem h4) (by omega)

/-- The emitted segments are well formed below the sentinel `DAY + 1`. -/
theorem goodSegs_fmtSegments (m : ℕ) : goodSegs (fmtSegments m) (DAY + 1) :=
  fmtSteps_good fmtWeights (DAY + 1) m
    (by norm_num [wsOK, unitWeight, fmtWeights, DAY, HOUR, MINUTE, SECOND, MS, UNIT,
      TIME_MAGNITUDE_1, TIME_MAGNITUDE_2, TIME_MAGNITUDE_3])

theorem fmtStepsNoMs_snd_sublist :
    ∀ (ws : List ℕ) (rem : ℕ), List.Sublist ((fmtStepsNoMs ws rem).map Prod.snd) ws := by
  intro ws
  induction ws with
  | nil => intro rem; simp [fmtStepsNoMs]
  | cons w ws ih =>
    intro rem
    by_cases h : w ≤ rem
    · simp only [fmtStepsNoMs, h, if_true, List.map_cons]
      exact List.Sublist.cons₂ w (ih (rem % w))
    · simp only [fmtStepsNoMs, h, if_false]
      exact List.Sublist.cons w (ih rem)

/-- The emitted weights are a sublist of the full descending unit list. -/
theorem fmtSegments_snd_sublist (m : ℕ) :
    List.Sublist ((fmtSegments m).map Prod.snd) [DAY, HOUR, MINUTE, SECOND, MS] := by
  rw [fmtSegments, List.map_append]
  have h1 := fmtStepsNoMs_snd_sublist fmtWeights m
  have h2 : List.Sublist ((if 0 < remAfter fmtWeights m
      then [(remAfter fmtWeights m, MS)] else []).map Prod.snd) [MS] := by
    by_cases hR : 0 < remAfter fmtWeights m
    · simp [hR]
    · simp [hR]
  have : [DAY, HOUR, MINUTE, SECOND, MS] = fmtWeights ++ [MS] := by decide
  rw [this]
  exact List.Sublist.append h1 h2

theorem goodSegs_pos :
    ∀ (l : List (ℕ × ℕ)) (last : ℕ), goodSegs l last → ∀ p ∈ l, 0 < p.1 := by
  intro l
  induction l with
  | nil => intro last _ p hp; simp at hp
  | cons q rest ih =>
    obtain ⟨n, w⟩ := q
    intro last h p hp
    obtain ⟨_, h2, _, h4⟩ := h
    rcases List.mem_cons.mp hp with hp | hp
    · subst hp; exact h2
    · exact ih w h4 p hp

theorem goodSegs_term_le :
    ∀ (l : List (ℕ × ℕ)) (last : ℕ), goodSegs l last → ∀ p ∈ l, p.1 * p.2 ≤ segsValue l := by
  intro l
  induction l with
  | nil => intro last _ p hp; simp at hp
  | cons q rest ih =>
    obtain ⟨n, w⟩ := q
    intro last h p hp
    obtain ⟨_, _, _, h4⟩ := h
    rcases List.mem_cons.mp hp with hp | hp
    · subst hp; simp [segsValue]
    · have := ih w h4 p hp
      simp [segsValue]
      omega

theorem unitWeight_le_DAY {w : ℕ} (h : unitWeight w) : 0 < w ∧ w ≤ DAY := by
  rcases h with rfl | rfl | rfl | rfl | rfl <;> decide

/-! ## The parser on rendered segments -/

theorem unitChars_head (w : ℕ) (hw : unitWeight w) :
    ∃ u t, unitChars w = u :: t ∧ isUnitChar u = true := by
  rcases hw with rfl | rfl | rfl | rfl | rfl
  · exact ⟨'d', [], unitChars_DAY, by decide⟩
  · exact ⟨'h', [], unitChars_HOUR, by decide⟩
  · exact ⟨'m', [], unitChars_MINUTE, by decide⟩
  · exact ⟨'s', [], unitChars_SECOND, by decide⟩
  · exact ⟨'m', ['s'], unitChars_MS, by decide⟩

theorem matchUnit_unitChars (w : ℕ) (hw : unitWeight w) (tail : List Char)
    (htail : tail = [] ∨ ∃ c t, tail = c :: t ∧ c.isDigit = true) :
    matchUnit (unitChars w ++ tail) = some (w, (unitChars w).length) := by
  rcases hw with rfl | rfl | rfl | rfl | rfl
  · rw [unitChars_DAY]
    simp [matchUnit]
  · rw [unitChars_HOUR]
    simp [matchUnit]
  · rw [unitChars_MINUTE]
    rcases htail with rfl | ⟨c, t, rfl, hc⟩
    · simp [matchUnit]
    · have hcs : c ≠ 's' := isDigit_ne_of_not_digit 's' hc (by decide)
      simp [matchUnit, hcs]
  · rw [unitChars_SECOND]
    simp [matchUnit]
  · rw [unitChars_MS]
    simp [matchUnit]

theorem renderSegs_head_digit (p : ℕ × ℕ) (r : List (ℕ × ℕ)) :
    ∃ c t, renderSegs (p :: r) = c :: t ∧ c.isDigit = true := by
  obtain ⟨c, t, hct⟩ := List.exists_cons_of_ne_nil (natDigits_ne_nil p.1)
  refine ⟨c, t ++ (unitChars p.2 ++ renderSegs r), ?_, ?_⟩
  · simp [renderSegs, renderSeg, hct]
  · exact natDigits_all_digit p.1 c (by rw [hct]; simp)

/-- The core correctness lemma: on rendered well-formed segments whose
total stays at or below `2^53`, the parse loop accumulates the exact
total and consumes the whole input. -/
theorem parseLoop_renderSegs :
    ∀ (segs : List (ℕ × ℕ)) (fuel lastUnit acc : ℕ),
      goodSegs segs lastUnit →
      (renderSegs segs).length < fuel →
      acc + segsValue segs ≤ 2 ^ 53 →
      parseLoop fuel (renderSegs segs) lastUnit (F64.finite (acc : ℚ)) =
        Except.ok (F64.finite ((acc + segsValue segs : ℕ) : ℚ), []) := by
  intro segs
  induction segs with
  | nil =>
    intro fuel lastUnit acc _ hfuel _
    match fuel with
    | f + 1 =>
      simp [parseLoop, renderSegs, segsValue]
  | cons p rest ih =>
    obtain ⟨n, w⟩ := p
    intro fuel lastUnit acc hgood hfuel hsum
    obtain ⟨hw, hn, hlt, hrest⟩ := hgood
    obtain ⟨u, t, hut, hu⟩ := unitChars_head w hw
    have hdigits := natDigits_all_digit n
    have hdg : ∀ c ∈ natDigits n, (fun c => !isUnitChar c) c = true := by
      intro c hc
      simp [isDigit_not_unitChar (hdigits c hc)]
    have hrender : renderSegs ((n, w) :: rest) =
        natDigits n ++ (unitChars w ++ renderSegs rest) := by
      simp [renderSegs, renderSeg, List.append_assoc]
    have hlen2 : 2 ≤ (natDigits n).length + (unitChars w).length := by
      have h1 : 1 ≤ (natDigits n).length :=
        List.length_pos.mpr (natDigits_ne_nil n)
      have h2 : 1 ≤ (unitChars w).length := by
        rw [hut]
        simp
      omega
    match fuel with
    | f + 1 =>
    have hfirst : (natDigits n ++ (unitChars w ++ renderSegs rest)).takeWhile
        (fun c => !isUnitChar c) = natDigits n := by
      rw [takeWhile_append_of_all hdg, hut, List.cons_append,
        takeWhile_cons_of_neg (by simp [hu]), List.append_nil]
    have hsecond : (natDigits n ++ (unitChars w ++ renderSegs rest)).dropWhile
        (fun c => !isUnitChar c) = unitChars w ++ renderSegs rest := by
      rw [dropWhile_append_of_all hdg]
      rw [hut, List.cons_append, dropWhile_cons_of_neg (by simp [hu]), ← List.cons_append, ← hut]
    have htail : renderSegs rest = [] ∨
        ∃ c t, renderSegs rest = c :: t ∧ c.isDigit = true := by
      cases rest with
      | nil => exact Or.inl rfl
      | cons q r => exact Or.inr (renderSegs_head_digit q r)
    have hmatch := matchUnit_unitChars w hw (renderSegs rest) htail
    have hw1 : 0 < w ∧ w ≤ DAY := unitWeight_le_DAY hw
    have hnw : n * w ≤ 2 ^ 53 := by
      have : n * w ≤ n * w + segsValue rest := by omega
      simp only [segsValue] at hsum
      omega
    have hn53 : n ≤ 2 ^ 53 := by
      have : n ≤ n * w := Nat.le_mul_of_pos_right n hw1.1
      omega
    have hw53 : w ≤ 2 ^ 53 := by
      have : DAY ≤ 2 ^ 53 := by decide
      omega
    have hparse : parseF64 (rustTrim (natDigits n)) = some (F64.finite (n : ℚ)) := by
      rw [rustTrim_of_no_ws fun c hc => isDigit_not_ws (hdigits c hc),
        parseF64_digits _ (natDigits_ne_nil n) hdigits, digitsToNat_natDigits,
        natToF64_exact n hn53]
    have hmul : fmul (F64.finite (n : ℚ)) (natToF64 w) = F64.finite ((n * w : ℕ) : ℚ) := by
      rw [natToF64_exact w hw53]
      exact fmul_nat_exact n w hnw
    have hadd : fadd (F64.finite (acc : ℚ)) (F64.finite ((n * w : ℕ) : ℚ)) =
        F64.finite ((acc + n * w : ℕ) : ℚ) := by
      have : acc + n * w ≤ 2 ^ 53 := by
        simp only [segsValue] at hsum
        omega
      exact fadd_nat_exact acc (n * w) this
    have hdrop : (unitChars w ++ renderSegs rest).drop (unitChars w).length =
        renderSegs rest := List.drop_left _ _
    rw [hrender]
    simp only [parseLoop, hfirst, hsecond]
    rw [List.isEmpty_eq_false_iff_exists_mem.mpr ⟨u, by rw [hut]; simp⟩]
    simp only [Bool.false_eq_true, if_false, hmatch]
    rw [if_neg (by omega), hparse]
    simp only [hmul, hadd, hdrop]
    have hfuel' : (renderSegs rest).length < f := by
      rw [hrender] at hfuel
      simp only [List.length_append] at hfuel
      omega
    have hsum' : (acc + n * w) + segsValue rest ≤ 2 ^ 53 := by
      simp only [segsValue] at hsum
      omega
    rw [ih f w (acc + n * w) hrest hfuel' hsum']
    have hval : acc + segsValue ((n, w) :: rest) = (acc + n * w) + segsValue rest := by
      simp only [segsValue, Nat.add_assoc]
    rw [hval]

/-! ## Loop exit, error, and sign-propagation lemmas -/

/-- When no unit character remains, the loop exits, returning the
accumulator and the unconsumed text. -/
theorem parseLoop_no_unit (f : ℕ) (left : List Char) (lastUnit : ℕ) (dur : F64)
    (h : ∀ c ∈ left, isUnitChar c = false) :
    parseLoop (f + 1) left lastUnit dur = Except.ok (dur, left) := by
  have hdw : left.dropWhile (fun c => !isUnitChar c) = [] :=
    dropWhile_of_all (fun c hc => by simp [h c hc])
  simp [parseLoop, hdw]

theorem matchUnit_cases {s : List Char} {w adv : ℕ} (h : matchUnit s = some (w, adv)) :
    unitWeight w := by
  unfold matchUnit at h
  split at h
  · injection h with h'
    rw [Prod.mk.injEq] at h'
    exact Or.inr (Or.inr (Or.inr (Or.inr h'.1.symm)))
  · split at h <;> first
      | (injection h with h'
         rw [Prod.mk.injEq] at h'
         first
           | exact Or.inl h'.1.symm
           | exact Or.inr (Or.inl h'.1.symm)
           | exact Or.inr (Or.inr (Or.inl h'.1.symm))
           | exact Or.inr (Or.inr (Or.inr (Or.inl h'.1.symm))))
      | exact absurd h (by simp)

/-- `parseF64Core` with a clear sign flag never yields a value with the
sign bit set. -/
theorem parseF64Core_false_sign (l : List Char) (v : F64)
    (h : parseF64Core l false = some v) : v.sign = false := by
  simp only [parseF64Core] at h
  split at h
  · injection h with h'
    subst h'
    rfl
  · split at h
    · injection h with h'
      subst h'
      rfl
    · match hd : parseDecimalCore l with
      | none => rw [hd] at h; simp at h
      | some t =>
        rw [hd] at h
        simp only [Option.map] at h
        injection h with h'
        subst h'
        split
        next => rfl
        next => exact applySign_false_roundPos_sign _

/-- A numeric literal without a minus sign never parses to a value with
the sign bit set. -/
theorem parseF64_no_minus (l : List Char) (v : F64) (hm : '-' ∉ l)
    (h : parseF64 l = some v) : v.sign = false := by
  unfold parseF64 at h
  have hminus : l.take 1 ≠ ['-'] := by
    intro heq
    exact hm ((List.take_subset 1 l) (by rw [heq]; simp))
  rw [if_neg hminus] at h
  split at h
  · exact parseF64Core_false_sign _ _ h
  · exact parseF64Core_false_sign _ _ h

/-- Every error the loop can produce. -/
theorem parseLoop_error_mem :
    ∀ (fuel : ℕ) (left : List Char) (lastUnit : ℕ) (dur : F64) (e : String),
      parseLoop fuel left lastUnit dur = Except.error e →
      e = "internal: fuel exhausted" ∨ e = errMsg ∨ e = orderMsg := by
  intro fuel
  induction fuel with
  | zero =>
    intro left lastUnit dur e h
    simp only [parseLoop] at h
    injection h with h'
    exact Or.inl h'.symm
  | succ f ih =>
    intro left lastUnit dur e h
    simp only [parseLoop] at h
    split at h
    · simp at h
    · split at h
      · injection h with h'
        exact Or.inr (Or.inl h'.symm)
      · split at h
        · injection h with h'
          exact Or.inr (Or.inr h'.symm)
        · split at h
          · injection h with h'
            exact Or.inr (Or.inl h'.symm)
          · exact ih _ _ _ _ h

/-- The loop keeps the accumulator's sign bit clear when the input holds
no minus sign. -/
theorem parseLoop_sign_false :
    ∀ (fuel : ℕ) (left : List Char) (lastUnit : ℕ) (dur dur' : F64) (left' : List Char),
      dur.sign = false → (∀ c ∈ left, c ≠ '-') →
      parseLoop fuel left lastUnit dur = Except.ok (dur', left') → dur'.sign = false := by
  intro fuel
  induction fuel with
  | zero =>
    intro left lastUnit dur dur' left' _ _ h
    simp only [parseLoop] at h
    exact absurd h (by simp)
  | succ f ih =>
    intro left lastUnit dur dur' left' hs hm h
    simp only [parseLoop] at h
    split at h
    · injection h with h'
      rw [Prod.mk.injEq] at h'
      rw [← h'.1]
      exact hs
    · split at h
      · exact absurd h (by simp)
      · next w adv hmu =>
        split at h
        · exact absurd h (by simp)
        · split at h
          · exact absurd h (by simp)
          · next n hpf =>
            have hw : unitWeight w := matchUnit_cases hmu
            obtain ⟨hw0, hwD⟩ := unitWeight_le_DAY hw
            have hw53 : w ≤ 2 ^ 53 := by
              have : DAY ≤ 2 ^ 53 := by decide
              omega
            have hnm : '-' ∉ rustTrim (left.takeWhile (fun c => !isUnitChar c)) := by
              intro hmem
              exact hm '-' ((List.takeWhile_sublist _).subset (mem_of_mem_rustTrim hmem)) rfl
            have hns : n.sign = false := parseF64_no_minus _ n hnm hpf
            have hterm : (fmul n (natToF64 w)).sign = false := by
              rw [natToF64_exact w hw53]
              exact fmul_sign_false n (w : ℚ) hns (by exact_mod_cast hw0)
            have hacc : (fadd dur (fmul n (natToF64 w))).sign = false :=
              fadd_sign_false _ _ hs hterm
            refine ih _ _ _ _ _ hacc ?_ h
            intro c hc
            exact hm c ((List.dropWhile_sublist _).subset (List.drop_subset _ _ hc))

/-! ## Round trip: `from_str` after `fmt` -/

theorem unitChars_mem (w : ℕ) (c : Char) (hc : c ∈ unitChars w) : isUnitChar c = true := by
  unfold unitChars at hc
  split_ifs at hc <;> simp at hc <;>
    first
      | (subst hc; decide)
      | (rcases hc with rfl | rfl <;> decide)

theorem isUnitChar_not_ws {c : Char} (h : isUnitChar c = true) : rustIsWhitespace c = false := by
  simp only [isUnitChar, decide_eq_true_eq] at h
  rcases h with rfl | rfl | rfl | rfl <;> decide

theorem isUnitChar_ascii {c : Char} (h : isUnitChar c = true) : c.toNat < 128 := by
  simp only [isUnitChar, decide_eq_true_eq] at h
  rcases h with rfl | rfl | rfl | rfl <;> decide

theorem renderSegs_chars :
    ∀ (segs : List (ℕ × ℕ)) (c : Char), c ∈ renderSegs segs →
      c.isDigit = true ∨ isUnitChar c = true := by
  intro segs
  induction segs with
  | nil => intro c hc; simp [renderSegs] at hc
  | cons p rest ih =>
    intro c hc
    simp only [renderSegs, renderSeg, List.append_assoc, List.mem_append] at hc
    rcases hc with hc | hc | hc
    · exact Or.inl (natDigits_all_digit p.1 c hc)
    · exact Or.inr (unitChars_mem p.2 c hc)
    · exact ih c hc

theorem fmtChars_chars (m : ℕ) :
    ∀ c ∈ fmtChars m, c.isDigit = true ∨ isUnitChar c = true := by
  intro c hc
  rw [fmtChars_eq_render] at hc
  by_cases h : fmtSegments m = []
  · rw [if_pos h] at hc
    simp at hc
    rcases hc with rfl | rfl
    · exact Or.inl (by decide)
    · exact Or.inr (by decide)
  · rw [if_neg h] at hc
    exact renderSegs_chars _ c hc

set_option maxRecDepth 8000 in
/-- Round trip: formatting a whole-millisecond duration whose total
count stays at or below `2^53` and parsing the result recovers it. -/
theorem from_str_fmt_roundtrip (sec nan : ℕ) (h9 : nan < 1000000000)
    (hw : nan % 1000000 = 0) (hb : sec * 1000 + nan / 1000000 ≤ 2 ^ 53) :
    from_str (ReadableDuration.fmt ⟨⟨sec, nan⟩⟩) = Except.ok ⟨⟨sec, nan⟩⟩ := by
  have hms : duration_to_ms ⟨sec, nan⟩ = sec * 1000 + nan / 1000000 := by
    simp only [duration_to_ms]
    exact Nat.mod_eq_of_lt (by calc sec * 1000 + nan / 1000000 ≤ 2 ^ 53 := hb
      _ < 2 ^ 64 := by norm_num)
  by_cases h0 : sec * 1000 + nan / 1000000 = 0
  · have hsec : sec = 0 := by omega
    have hnan : nan = 0 := by omega
    subst hsec
    subst hnan
    decide
  · have hchars := fmtChars_chars (sec * 1000 + nan / 1000000)
    have hnws : ∀ c ∈ fmtChars (sec * 1000 + nan / 1000000), rustIsWhitespace c = false :=
      fun c hc => (hchars c hc).elim isDigit_not_ws isUnitChar_not_ws
    have hascii : ∀ c ∈ fmtChars (sec * 1000 + nan / 1000000), c.toNat < 128 :=
      fun c hc => (hchars c hc).elim isDigit_ascii isUnitChar_ascii
    have hdata : (ReadableDuration.fmt ⟨⟨sec, nan⟩⟩).data =
        fmtChars (sec * 1000 + nan / 1000000) := by
      simp [ReadableDuration.fmt, hms]
    have hsegne : fmtSegments (sec * 1000 + nan / 1000000) ≠ [] := by
      intro hnil
      exact h0 (by rw [← segsValue_fmtSegments (sec * 1000 + nan / 1000000), hnil]; rfl)
    have hrender : fmtChars (sec * 1000 + nan / 1000000) =
        renderSegs (fmtSegments (sec * 1000 + nan / 1000000)) := by
      rw [fmtChars_eq_render, if_neg hsegne]
    have hloop := parseLoop_renderSegs (fmtSegments (sec * 1000 + nan / 1000000))
      ((renderSegs (fmtSegments (sec * 1000 + nan / 1000000))).length + 1) (DAY + 1) 0
      (goodSegs_fmtSegments _) (by omega)
      (by rw [segsValue_fmtSegments]; omega)
    rw [segsValue_fmtSegments] at hloop
    simp only [Nat.zero_add, Nat.cast_zero] at hloop
    have hall : (fmtChars (sec * 1000 + nan / 1000000)).all
        (fun c => decide (c.toNat < 128)) = true := by
      rw [List.all_eq_true]
      intro c hc
      simpa using hascii c hc
    simp only [from_str]
    rw [hdata, rustTrim_of_no_ws hnws, hall]
    simp only [Bool.not_true, Bool.false_eq_true, if_false]
    rw [hrender, hloop]
    have hsign : (F64.finite ((sec * 1000 + nan / 1000000 : ℕ) : ℚ)).sign = false := by
      simp only [F64.sign, decide_eq_false_iff_not]
      push_neg
      positivity
    simp only [List.isEmpty_nil, Bool.not_true, Bool.false_eq_true, if_false, hsign]
    rw [castU64_nat _ (by calc sec * 1000 + nan / 1000000 ≤ 2 ^ 53 := hb
      _ < 2 ^ 64 := by norm_num)]
    simp only [Duration.new, SECOND, MS, UNIT, TIME_MAGNITUDE_1, Except.ok.injEq,
      ReadableDuration.mk.injEq, Duration.mk.injEq]
    constructor
    · omega
    · omega

/-! ## `from_str`-level structure lemmas -/

/-- An out-of-order (or duplicate) unit makes the loop fail with the
order message, whatever else the input holds. -/
theorem parseLoop_order_violation (fuel : ℕ) (left : List Char) (lastUnit w adv : ℕ)
    (dur : F64) (hfuel : 0 < fuel)
    (hmu : matchUnit (left.dropWhile (fun c => !isUnitChar c)) = some (w, adv))
    (hord : lastUnit ≤ w) :
    parseLoop fuel left lastUnit dur = Except.error orderMsg := by
  match fuel, hfuel with
  | f + 1, _ =>
    have hne : left.dropWhile (fun c => !isUnitChar c) ≠ [] := by
      intro hnil
      rw [hnil] at hmu
      simp [matchUnit] at hmu
    obtain ⟨u, hu⟩ := List.exists_mem_of_ne_nil _ hne
    simp only [parseLoop]
    rw [List.isEmpty_eq_false_iff_exists_mem.mpr ⟨u, hu⟩]
    simp only [Bool.false_eq_true, if_false, hmu]
    rw [if_pos hord]

theorem ascii_msg_ne_negMsg (x : List Char) :
    ("unexpect ascii string: " ++ String.mk x) ≠ negMsg := by
  intro h
  have hd : ("unexpect ascii string: " ++ String.mk x).data = negMsg.data :=
    congrArg String.data h
  have he : ("unexpect ascii string: " ++ String.mk x).data =
      "unexpect ascii string: ".data ++ x := rfl
  rw [he] at hd
  have h1 : ("unexpect ascii string: ".data ++ x).head? = some 'u' := rfl
  rw [hd] at h1
  have h2 : negMsg.data.head? = some 'd' := rfl
  rw [h2] at h1
  exact absurd h1 (by decide)

/-- A minus-free input can never fail with the negative-duration
message. -/
theorem from_str_no_minus_not_neg (s : String) (hm : ∀ c ∈ s.data, c ≠ '-') :
    from_str s ≠ Except.error negMsg := by
  simp only [from_str]
  split
  · intro h
    injection h with h'
    exact ascii_msg_ne_negMsg _ h'
  · match hp : parseLoop ((rustTrim s.data).length + 1) (rustTrim s.data) (DAY + 1)
        (F64.finite 0) with
    | Except.error e =>
      intro h
      injection h with h'
      subst h'
      rcases parseLoop_error_mem _ _ _ _ _ hp with h1 | h1 | h1 <;> revert h1 <;> decide
    | Except.ok (dur, left) =>
      have hsign : dur.sign = false := by
        refine parseLoop_sign_false _ _ _ _ _ _ (by rfl) ?_ hp
        intro c hc
        exact hm c (mem_of_mem_rustTrim hc)
      dsimp only
      by_cases hleft : left.isEmpty
      · rw [hleft]
        simp only [Bool.not_true, Bool.false_eq_true, if_false, hsign]
        simp
      · rw [Bool.not_eq_true] at hleft
        rw [hleft]
        simp only [Bool.not_false, if_true]
        intro h
        injection h with h'
        exact absurd h'.symm (by decide)

/-- A negative accumulated total (with the whole input consumed) makes
`from_str` fail with the negative-duration message. -/
theorem from_str_neg_total (s : String) (dur : F64)
    (hascii : (rustTrim s.data).all (fun c => decide (c.toNat < 128)) = true)
    (hp : parseLoop ((rustTrim s.data).length + 1) (rustTrim s.data) (DAY + 1)
      (F64.finite 0) = Except.ok (dur, []))
    (hsign : dur.sign = true) : from_str s = Except.error negMsg := by
  simp only [from_str]
  rw [hascii]
  simp only [Bool.not_true, Bool.false_eq_true, if_false]
  rw [hp]
  simp [hsign]

/-- Unconsumed text after the loop makes `from_str` fail with the
invalid-encoding message. -/
theorem from_str_leftover_err (s : String) (dur : F64) (left : List Char)
    (hascii : (rustTrim s.data).all (fun c => decide (c.toNat < 128)) = true)
    (hp : parseLoop ((rustTrim s.data).length + 1) (rustTrim s.data) (DAY + 1)
      (F64.finite 0) = Except.ok (dur, left))
    (hne : left ≠ []) : from_str s = Except.error errMsg := by
  simp only [from_str]
  rw [hascii]
  simp only [Bool.not_true, Bool.false_eq_true, if_false]
  rw [hp]
  dsimp only
  obtain ⟨u, hu⟩ := List.exists_mem_of_ne_nil _ hne
  rw [List.isEmpty_eq_false_iff_exists_mem.mpr ⟨u, hu⟩]
  simp

/-- A successful parse consumed the entire trimmed input. -/
theorem from_str_ok_consumed (s : String) (d : ReadableDuration)
    (h : from_str s = Except.ok d) :
    ∃ dur, parseLoop ((rustTrim s.data).length + 1) (rustTrim s.data) (DAY + 1)
      (F64.finite 0) = Except.ok (dur, []) := by
  simp only [from_str] at h
  split at h
  · exact absurd h (by simp)
  · match hp : parseLoop ((rustTrim s.data).length + 1) (rustTrim s.data) (DAY + 1)
        (F64.finite 0) with
    | Except.error e => rw [hp] at h; exact absurd h (by simp)
    | Except.ok (dur, left) =>
      rw [hp] at h
      dsimp only at h
      by_cases hleft : left.isEmpty
      · have : left = [] := by
          rwa [List.isEmpty_iff] at hleft
        subst this
        exact ⟨dur, rfl⟩
      · rw [Bool.not_eq_true] at hleft
        rw [hleft] at h
        simp at h

/-- An input that trims to nothing parses to the zero duration. -/
theorem from_str_trim_empty (s : String) (h : rustTrim s.data = []) :
    from_str s = Except.ok ⟨⟨0, 0⟩⟩ := by
  simp only [from_str]
  rw [h]
  rfl

/-! ## Claim theorems -/

/-- Claim C1 as stated is false: the interval of 2^53 + 1 whole
milliseconds (9007199254740 s + 993 ms) formats to
`"104249991d8h59m993ms"`, but parsing that back rounds the `f64`
accumulated total to the nearest even representable value, 2^53,
losing the final millisecond. -/
theorem c1_roundtrip_counterexample :
    from_str (ReadableDuration.fmt ⟨⟨9007199254740, 993000000⟩⟩) ≠
      Except.ok ⟨⟨9007199254740, 993000000⟩⟩ := by
  decide

/-- Claim C1 (amended): for every interval expressible as whole
milliseconds whose total millisecond count is at most 2^53 (the bound
to which binary64 holds integers exactly), parsing the string produced
by Format yields the interval back: `Parse(Format(x)) = x`. -/
theorem c1_roundtrip_whole_ms (sec nan : ℕ) (h9 : nan < 1000000000)
    (hw : nan % 1000000 = 0) (hb : sec * 1000 + nan / 1000000 ≤ 2 ^ 53) :
    from_str (ReadableDuration.fmt ⟨⟨sec, nan⟩⟩) = Except.ok ⟨⟨sec, nan⟩⟩ :=
  from_str_fmt_roundtrip sec nan h9 hw hb

/-- Witness for C1: the spec's worked example, 1 day 2 hours 3 minutes
4 seconds 5 milliseconds (93,784,005 ms), round trips. -/
theorem c1_roundtrip_witness :
    from_str (ReadableDuration.fmt ⟨⟨93784, 5000000⟩⟩) = Except.ok ⟨⟨93784, 5000000⟩⟩ :=
  c1_roundtrip_whole_ms 93784 5000000 (by norm_num) (by norm_num) (by norm_num)

/-- Claim C2: whenever the matched unit's weight is not strictly
smaller than the previously matched one (duplicates included), the
parser fails with the unit-order message; `"1m2h"` fails with it and
`"1h2m"` parses to 3,720,000 ms. -/
theorem c2_unit_order :
    (∀ (fuel : ℕ) (left : List Char) (lastUnit w adv : ℕ) (dur : F64),
      0 < fuel →
      matchUnit (left.dropWhile (fun c => !isUnitChar c)) = some (w, adv) →
      lastUnit ≤ w →
      parseLoop fuel left lastUnit dur = Except.error orderMsg) ∧
    from_str "1m2h" = Except.error orderMsg ∧
    from_str "1h2m" = Except.ok (ReadableDuration.millis 3720000) := by
  refine ⟨?_, by decide, by decide⟩
  intro fuel left lastUnit w adv dur hfuel hmu hord
  exact parseLoop_order_violation fuel left lastUnit w adv dur hfuel hmu hord

/-- Witness for C2: a minute already seen, an hour token next —
the loop rejects with the order message. -/
theorem c2_unit_order_witness :
    parseLoop 3 ['2', 'h'] MINUTE (F64.finite 1) = Except.error orderMsg :=
  c2_unit_order.1 3 ['2', 'h'] MINUTE HOUR 1 (F64.finite 1) (by norm_num) (by decide)
    (by decide)

/-- Claim C3: at a position starting with `ms`, the two-character token
wins over the single `m`; `"500ms"` parses to exactly 500 ms. -/
theorem c3_ms_precedence :
    (∀ rest : List Char, matchUnit ('m' :: 's' :: rest) = some (MS, 2)) ∧
    from_str "500ms" = Except.ok (ReadableDuration.millis 500) := by
  refine ⟨?_, by decide⟩
  intro rest
  simp [matchUnit]

/-- Claim C4 as stated is false: for the interval of 2^61 seconds the
total millisecond count 2^61 × 1000 does not fit `u64`, and the `as
u64` cast in the conversion wraps it to 0, not to the floor of the
total millisecond count. -/
theorem c4_truncation_counterexample :
    ReadableDuration.into_config ⟨⟨2305843009213693952, 0⟩⟩ ≠
      ConfigValue.Duration (2305843009213693952 * 1000 + 0 / 1000000) := by
  decide

/-- Claim C4 (amended): for every interval whose floored total
millisecond count fits `u64`, the interchange value stores exactly that
floor; converting any interchange value back yields an interval of
exactly that many whole milliseconds with zero sub-millisecond
remainder, so the round trip through the interchange representation
always has zero sub-millisecond remainder. -/
theorem c4_interchange_floor :
    (∀ secs nanos : ℕ, secs * 1000 + nanos / 1000000 < 2 ^ 64 →
      ReadableDuration.into_config ⟨⟨secs, nanos⟩⟩ =
        ConfigValue.Duration (secs * 1000 + nanos / 1000000)) ∧
    (∀ v : ℕ, (ConfigValue.Duration v).into_duration.dur.nanos % 1000000 = 0 ∧
      (v < 2 ^ 64 → duration_to_ms (ConfigValue.Duration v).into_duration.dur = v)) ∧
    (∀ d : ReadableDuration, d.into_config.into_duration.dur.nanos % 1000000 = 0) := by
  refine ⟨?_, ?_, ?_⟩
  · intro secs nanos h
    simp only [ReadableDuration.into_config, Duration.as_millis_u128]
    rw [Nat.mod_eq_of_lt h]
  · intro v
    constructor
    · simp only [ConfigValue.into_duration, Duration.from_millis]
      omega
    · intro hv
      simp only [ConfigValue.into_duration, Duration.from_millis, duration_to_ms]
      have h1 : v / 1000 * 1000 + v % 1000 * 1000000 / 1000000 = v := by omega
      rw [h1, Nat.mod_eq_of_lt hv]
  · intro d
    obtain ⟨⟨secs, nanos⟩⟩ := d
    simp only [ReadableDuration.into_config, ConfigValue.into_duration, Duration.from_millis]
    omega

/-- Witness for C4: one second plus half a millisecond stores the
floored payload of 1000 ms. -/
theorem c4_interchange_witness :
    ReadableDuration.into_config ⟨⟨1, 500000⟩⟩ = ConfigValue.Duration 1000 := by
  have h := c4_interchange_floor.1 1 500000 (by norm_num)
  simpa using h

/-- Claim C5: a negative accumulated total (after the whole input is
consumed) fails with the negative-duration message; that outcome needs
a minus sign somewhere in the input (an input without `'-'` can never
produce it); and `"-5s"` deterministically fails with the
negative-duration message, never succeeding. -/
theorem c5_negative_rejection :
    (∀ (s : String) (dur : F64),
      (rustTrim s.data).all (fun c => decide (c.toNat < 128)) = true →
      parseLoop ((rustTrim s.data).length + 1) (rustTrim s.data) (DAY + 1)
        (F64.finite 0) = Except.ok (dur, []) →
      dur.sign = true → from_str s = Except.error negMsg) ∧
    (∀ s : String, (∀ c ∈ s.data, c ≠ '-') → from_str s ≠ Except.error negMsg) ∧
    from_str "-5s" = Except.error negMsg ∧
    (∀ d : ReadableDuration, from_str "-5s" ≠ Except.ok d) := by
  refine ⟨from_str_neg_total, from_str_no_minus_not_neg, by decide, ?_⟩
  intro d h
  rw [show from_str "-5s" = Except.error negMsg from by decide] at h
  exact absurd h (by simp)

/-- Witness for C5: the parsed total of `"-5s"` is −5000 ms with the
sign bit set, so `from_str` rejects it with the negative-duration
message. -/
theorem c5_negative_witness : from_str "-5s" = Except.error negMsg :=
  c5_negative_rejection.1 "-5s" (F64.finite (-5000)) (by decide) (by decide) (by decide)

/-- Claim C6: unconsumed text remaining after the last matched unit
token makes the parse fail with the invalid-encoding message (a
successful parse consumed the entire trimmed input), and `"10s!"` fails
with the invalid-encoding message. -/
theorem c6_trailing_rejection :
    (∀ (s : String) (dur : F64) (left : List Char),
      (rustTrim s.data).all (fun c => decide (c.toNat < 128)) = true →
      parseLoop ((rustTrim s.data).length + 1) (rustTrim s.data) (DAY + 1)
        (F64.finite 0) = Except.ok (dur, left) →
      left ≠ [] → from_str s = Except.error errMsg) ∧
    (∀ (s : String) (d : ReadableDuration), from_str s = Except.ok d →
      ∃ dur, parseLoop ((rustTrim s.data).length + 1) (rustTrim s.data) (DAY + 1)
        (F64.finite 0) = Except.ok (dur, [])) ∧
    from_str "10s!" = Except.error errMsg :=
  ⟨from_str_leftover_err, from_str_ok_consumed, by decide⟩

/-- Witness for C6: after `"10s"` the character `'!'` is left over, so
`"10s!"` is rejected with the invalid-encoding message. -/
theorem c6_trailing_witness : from_str "10s!" = Except.error errMsg :=
  c6_trailing_rejection.1 "10s!" (F64.finite 10000) ['!'] (by decide) (by decide) (by decide)

/-- Claim C7: for every interval, Format emits exactly the rendering of
its segment list with no separators (`"0s"` when it is empty); every
emitted segment has a nonzero value; and the emitted unit weights form
a sublist of the strictly decreasing list day, hour, minute, second,
millisecond. -/
theorem c7_format_canonical (d : ReadableDuration) :
    ReadableDuration.fmt d =
      (if fmtSegments (duration_to_ms d.dur) = [] then "0s"
        else String.mk (renderSegs (fmtSegments (duration_to_ms d.dur)))) ∧
    (∀ p ∈ fmtSegments (duration_to_ms d.dur), 0 < p.1) ∧
    List.Sublist ((fmtSegments (duration_to_ms d.dur)).map Prod.snd)
      [DAY, HOUR, MINUTE, SECOND, MS] := by
  refine ⟨?_, goodSegs_pos _ _ (goodSegs_fmtSegments _), fmtSegments_snd_sublist _⟩
  rw [ReadableDuration.fmt, fmtChars_eq_render]
  by_cases h : fmtSegments (duration_to_ms d.dur) = []
  · rw [if_pos h, if_pos h]
  · rw [if_neg h, if_neg h]

/-- Witness for C7: the 1-minute segment of the 90-second interval has
a nonzero value. -/
theorem c7_format_witness : 0 < ((1, MINUTE) : ℕ × ℕ).1 :=
  (c7_format_canonical ⟨⟨90, 0⟩⟩).2.1 (1, MINUTE) (by decide)

/-- Claim C8: Format of the zero interval is exactly `"0s"`,
`Parse("0s")` yields the zero interval, and any input that is empty
after trimming surrounding whitespace parses to the zero interval. -/
theorem c8_zero_handling :
    ReadableDuration.fmt ⟨⟨0, 0⟩⟩ = "0s" ∧
    from_str "0s" = Except.ok ⟨⟨0, 0⟩⟩ ∧
    (∀ s : String, rustTrim s.data = [] → from_str s = Except.ok ⟨⟨0, 0⟩⟩) :=
  ⟨by decide, by decide, from_str_trim_empty⟩

/-- Witness for C8: a whitespace-only input parses to the zero
interval. -/
theorem c8_zero_witness : from_str "   " = Except.ok ⟨⟨0, 0⟩⟩ :=
  c8_zero_handling.2.2 "   " (by decide)

/-- Claim C9: converting an interchange value back into an interval is
total: every `ConfigValue` is the `Duration` variant, so the
wrong-variant panic branch is unreachable and the conversion always
produces `Duration::from_millis` of the payload. -/
theorem c9_interchange_total (cv : ConfigValue) :
    ∃ v : ℕ, cv = ConfigValue.Duration v ∧
      cv.into_duration = ⟨Duration.from_millis v⟩ := by
  cases cv with
  | Duration v => exact ⟨v, rfl, rfl⟩

/-- Claim C10: the numeric literal `"nan"` parses as floating NaN (the
parser accepts full floating-point syntax, not just digits), so
`Parse("nans")` does not fail with the invalid-encoding message:
the NaN total casts to 0 and the result is the zero interval. -/
theorem c10_nan_parse :
    parseF64 ['n', 'a', 'n'] = some (F64.nan false) ∧
    from_str "nans" = Except.ok ⟨⟨0, 0⟩⟩ ∧
    from_str "nans" ≠ Except.error errMsg := by
  refine ⟨by decide, by decide, ?_⟩
  intro h
  rw [show from_str "nans" = Except.ok ⟨⟨0, 0⟩⟩ from by decide] at h
  exact absurd h (by simp)
